import Mathlib

/-!
Verification development for the OpenPGP Symmetrically Encrypted Integrity
Protected Data (SEIPD) packet implementation and the AES-CMAC primitive.

The source is translated into a shallow embedding:
- byte sequences are `List Nat`;
- the asynchronous, stream-based chunked AEAD engine `runAEAD` is embedded as a
  fuel-indexed functional loop that processes the same byte windows, nonces and
  associated-data buffers as the source and records every invocation of the
  underlying AEAD primitive (a ghost trace used to state per-chunk properties);
- external collaborators (AEAD modes, HKDF, SHA-1, CFB, AES-CBC, cipher
  parameters) are abstracted as function parameters, mirroring the interfaces
  the source consumes.
-/

namespace OpenPGPSpec

/-- Byte sequences are modelled as lists of naturals (each byte below 256 where
it matters). -/
abbrev Bytes := List Nat

/-- ECMAScript TypedArray relative index resolution: a negative index counts
from the end of the array (clamped below at 0), a nonnegative index is clamped
above at the length. -/
def relIndex (len : Nat) (i : Int) : Nat :=
  if i < 0 then ((len : Int) + i).toNat else min i.toNat len

/-- `TypedArray.subarray(b, e)` semantics on byte lists. -/
def jsSub (l : Bytes) (b e : Int) : Bytes :=
  (l.take (relIndex l.length e)).drop (relIndex l.length b)

/-- Big-endian 32-bit encoding of a natural number (as written by
`DataView.setInt32`, which stores the value modulo 2^32). -/
def be32n (i : Nat) : Bytes :=
  [i / 2 ^ 24 % 256, i / 2 ^ 16 % 256, i / 2 ^ 8 % 256, i % 256]

/-- Big-endian 32-bit encoding of an integer, as stored by
`DataView.setInt32`: the byte pattern is that of the value modulo 2^32. -/
def be32i (i : Int) : Bytes :=
  be32n (i % (2 ^ 32 : Int)).toNat

/-- The last `k` bytes of a list (`subarray(-k)` on a list at least `k` long). -/
def lastN (l : Bytes) (k : Nat) : Bytes :=
  l.drop (l.length - k)

/-! ## CMAC (OMAC1), from `src/crypto/cmac.js`

The platform AES-CBC primitive (zero IV, no padding) consumed by the source is
modelled by `CBC` over an abstract one-block cipher `E`. -/

/-- `const blockLength = 16` in `cmac.js`. -/
abbrev blockLength : Nat := 16

/-- `rightXORMut(data, padding)`: xor the 16-byte `padding` into the final 16
bytes of `data` (pure rendering of the in-place mutation; `pad` only applies it
to buffers of at least one block). -/
def rightXORMut (data padding : Bytes) : Bytes :=
  data.take (data.length - blockLength) ++
    List.zipWith Nat.xor (data.drop (data.length - blockLength)) padding

/-- `pad(data, padding, padding2)` from `cmac.js`: a message whose length is a
positive multiple of the block length gets `padding` xored into its last block;
otherwise it is padded with a `0x80` byte and zeros to the next block boundary
and gets `padding2` xored into its last block. -/
def pad (data padding padding2 : Bytes) : Bytes :=
  if data.length ≠ 0 ∧ data.length % blockLength = 0 then
    rightXORMut data padding
  else
    rightXORMut
      (data ++ 0x80 :: List.replicate (blockLength - data.length % blockLength - 1) 0)
      padding2

/-- `const zeroBlock = new Uint8Array(blockLength)`. -/
def zeroBlock : Bytes := List.replicate blockLength 0

/-- Model of the external AES-CBC encryption consumed by `cmac.js` (zero IV, no
padding), over an abstract one-block cipher `E`: standard CBC chaining, the
whole ciphertext is returned. -/
def CBC (E : Bytes → Bytes) (iv : Bytes) (pt : Bytes) : Bytes :=
  if h : pt = [] then []
  else
    let c := E (List.zipWith Nat.xor iv (pt.take blockLength))
    c ++ CBC E c (pt.drop blockLength)
termination_by pt.length
decreasing_by
  have hp : 0 < pt.length := List.length_pos.mpr h
  simp only [List.length_drop, blockLength]
  omega

/-- Modelled from the spec: `util.double`, doubling in GF(2^128) (the helper
lives in the repository's `util.js`, which is not among the provided sources).
Byte-wise left shift by one bit; if the top bit of the first byte was set,
`0x87` is xored into the last byte. `msbTimes87` is the value xored into the
final byte. -/
def doubleGo (msbTimes87 : Nat) : List Nat → List Nat
  | [] => []
  | [x] => [(x % 256 * 2 % 256) ^^^ msbTimes87]
  | x :: y :: rest => (x % 256 * 2 % 256 ^^^ y % 256 / 128) :: doubleGo msbTimes87 (y :: rest)

/-- Modelled from the spec: doubling in GF(2^128) (`util.double`, consumed by
`cmac.js` but not among the provided sources). -/
def double (l : Bytes) : Bytes :=
  match l with
  | [] => []
  | a :: rest => doubleGo (a % 256 / 128 * 0x87) (a :: rest)

/-- `CMAC` from `cmac.js`, with the keyed block cipher `E = E_K` abstract:
`L = E(0^16)`, `B = 2L`, `P = 4L`, and the tag is the last block-length bytes of
the zero-IV CBC encryption of `pad(M; B, P)`. -/
def CMAC (E : Bytes → Bytes) (data : Bytes) : Bytes :=
  let padding := double (E zeroBlock)
  let padding2 := double padding
  lastN (CBC E zeroBlock (pad data padding padding2)) blockLength

/-! ### Reference OMAC1 definition (from the spec's words, for claim C4) -/

/-- Split a message into blocks of `blockLength` bytes (last block possibly
short). Specification-side helper. -/
def toBlocks (m : Bytes) : List Bytes :=
  if m.length ≤ blockLength then [m]
  else m.take blockLength :: toBlocks (m.drop blockLength)
termination_by m.length
decreasing_by
  simp only [List.length_drop, blockLength]
  omega

/-- Zero-IV CBC-MAC: the last ciphertext block of a CBC pass, computed as a
fold over the blocks. Specification-side helper. -/
def cbcMacTag (E : Bytes → Bytes) (m : Bytes) : Bytes :=
  (toBlocks m).foldl (fun prev blk => E (List.zipWith Nat.xor prev blk)) zeroBlock

/-- XOR a subkey into the last block of a message. Specification-side helper. -/
def xorIntoLast (m sub : Bytes) : Bytes :=
  m.take (m.length - blockLength) ++
    List.zipWith Nat.xor (m.drop (m.length - blockLength)) sub

/-- The OMAC1 tag per the reference definition in the spec: `L = E_K(0^n)`,
`K1 = double(L)`, `K2 = double(K1)`; a message whose length is a positive
multiple of the block length gets `K1` xored into its last block, any other
message (the empty message included) is padded with a single 1 bit and zero
bits to the block boundary and gets `K2` xored into its last block; the tag is
the last ciphertext block of a zero-IV CBC-MAC. -/
def cmacRef (E : Bytes → Bytes) (msg : Bytes) : Bytes :=
  let L := E zeroBlock
  let K1 := double L
  let K2 := double K1
  let lastAdjusted :=
    if msg.length ≠ 0 ∧ msg.length % blockLength = 0 then
      xorIntoLast msg K1
    else
      xorIntoLast
        (msg ++ 0x80 :: List.replicate (blockLength - 1 - msg.length % blockLength) 0) K2
  cbcMacTag E lastAdjusted

/-! ## SEIPD packet and the chunked AEAD engine, from the SEIPD source file -/

/-- The packet tag of `SymEncryptedIntegrityProtectedDataPacket`
(`enums.packet.symEncryptedIntegrityProtectedData`). -/
def seipdTag : Nat := 18

/-- The packet tag of `AEADEncryptedDataPacket` (`enums.packet.aeadEncryptedData`). -/
def aeadpTag : Nat := 20

/-- The interface of an AEAD mode object as consumed by `runAEAD`
(`cipherMode.getAEADMode(...)` then `mode(cipherAlgorithm, key)`); `enc` returns
ciphertext followed by the tag, `dec` returns the plaintext or fails on an
authentication error. -/
structure AEADMode where
  tagLength : Nat
  ivLength : Nat
  enc : Nat → Bytes → Bytes → Bytes → Bytes → Bytes
  dec : Nat → Bytes → Bytes → Bytes → Bytes → Option Bytes

/-- The external cryptographic collaborators consumed by the SEIPD source file:
cipher parameters, HKDF (hash fixed to SHA-256 by the caller), SHA-1, and the
CFB mode of operation. -/
structure Primitives where
  keySize : Nat → Nat
  blockSize : Nat → Nat
  hkdf : Bytes → Bytes → Bytes → Nat → Bytes
  sha1 : Bytes → Bytes
  cfbEncrypt : Nat → Bytes → Bytes → Bytes → Bytes
  cfbDecrypt : Nat → Bytes → Bytes → Bytes → Bytes

/-- State of a `SymEncryptedIntegrityProtectedDataPacket` as used by
`encrypt`/`decrypt`/`runAEAD`; `packets` holds the serialized inner packet
sequence (`this.packets.write()` on encryption, the parser input on
decryption). -/
structure SEIPDPacket where
  version : Nat
  cipherAlgorithm : Nat
  aeadAlgorithm : Nat
  chunkSizeByte : Nat
  salt : Bytes
  encrypted : Bytes
  packets : Bytes
deriving DecidableEq, Repr

/-- The fields of an `AEADEncryptedDataPacket` that `runAEAD` reads. -/
structure AEADPPacket where
  version : Nat
  cipherAlgorithm : Nat
  aeadAlgorithm : Nat
  chunkSizeByte : Nat
  iv : Bytes
deriving DecidableEq, Repr

/-- The packet argument of `runAEAD`: either a SEIPD packet or an
AEAD-encrypted-data packet. -/
inductive AEADPacketArg where
  | seipd (p : SEIPDPacket)
  | aeadp (p : AEADPPacket)
deriving DecidableEq, Repr

/-- Direction argument (`fn`) of `runAEAD`. -/
inductive Direction where
  | encrypt
  | decrypt
deriving DecidableEq, Repr

/-- One invocation of the underlying AEAD primitive, recorded as a ghost trace
entry: the input bytes, the nonce and the associated data passed to it. -/
structure ChunkCall where
  input : Bytes
  nonce : Bytes
  adata : Bytes
deriving DecidableEq, Repr

/-- Result of the chunked engine: the concatenated output written to the sink
(in chunk order) and the trace of AEAD primitive invocations. -/
structure LoopOut where
  out : Bytes
  calls : List ChunkCall
deriving DecidableEq, Repr

/-- The five-byte associated-data buffer head
`[0xC0 | tag, version, cipherAlgorithm, aeadAlgorithm, chunkSizeByte]`. -/
def adataHead (tag version cipherAlg aeadAlg chunkSizeByte : Nat) : Bytes :=
  [0xC0 ||| tag, version, cipherAlg, aeadAlg, chunkSizeByte]

/-- The eight-byte chunk-index field of the associated-data buffer: the source
writes the counter with `setInt32(5 + 4, ++chunkIndex)`, so the first four
bytes stay zero and the last four hold the counter big-endian modulo 2^32. -/
def chunkIndexField (i : Nat) : Bytes :=
  List.replicate 4 0 ++ be32n i

/-- `iv.fill(0, iv.length - 8)`: zero the last eight bytes. -/
def zeroLast8 (l : Bytes) : Bytes :=
  l.take (l.length - 8) ++ List.replicate (min 8 l.length) 0

/-- The per-chunk nonce of the SEIPD v2 path: chunk 0 uses the derived IV
unchanged; every later chunk has the counter written big-endian over the final
four bytes (`ivView.setInt32(iv.length - 4, ++chunkIndex)`, a 32-bit write). -/
def seipdNonce (ivb : Bytes) (i : Nat) : Bytes :=
  if i = 0 then ivb else ivb.take (ivb.length - 4) ++ be32n i

/-- The per-chunk nonce of the AEAD-encrypted-data path: a fresh copy of the
packet IV with the eight chunk-index bytes xored into its final eight bytes. -/
def aeadpNonce (iv : Bytes) (i : Nat) : Bytes :=
  iv.take (iv.length - 8) ++
    List.zipWith Nat.xor (iv.drop (iv.length - 8)) (chunkIndexField i)

/-- `chunk = chunk.subarray(0, chunk.length - tagLengthIfDecrypting)` applied
to a read window. -/
def chunkOf (tagIfDec : Nat) (w : Bytes) : Bytes :=
  jsSub w 0 ((w.length : Int) - (tagIfDec : Int))

/-- `finalChunk = chunk.subarray(chunk.length - tagLengthIfDecrypting)` applied
to a read window. -/
def finalChunkOf (tagIfDec : Nat) (w : Bytes) : Bytes :=
  jsSub w ((w.length : Int) - (tagIfDec : Int)) (w.length : Int)

/-- `modeInstance[fn]`: the direction-resolved per-chunk cryptographic call;
AEAD decryption failure (tag mismatch) is an error. -/
def cryptFn (mode : AEADMode) (dir : Direction) (alg : Nat) (key : Bytes) :
    Bytes → Bytes → Bytes → Except String Bytes :=
  match dir with
  | .encrypt => fun x nonce ad => .ok (mode.enc alg key x nonce ad)
  | .decrypt => fun x nonce ad =>
      match mode.dec alg key x nonce ad with
      | some pt => .ok pt
      | none => .error "Authentication tag mismatch"

/-- The decryption-direction per-chunk call over an abstract `decf`
(`cryptFn mode .decrypt alg key = decCfOf (mode.dec alg key)` definitionally). -/
def decCfOf (decf : Bytes → Bytes → Bytes → Option Bytes) :
    Bytes → Bytes → Bytes → Except String Bytes :=
  fun x nonce ad =>
    match decf x nonce ad with
    | some pt => .ok pt
    | none => .error "Authentication tag mismatch"

/-- The total plaintext byte count of a run: the input length when encrypting,
the output length when decrypting. -/
def totalPlainLen : Direction → Bytes → LoopOut → Int
  | .encrypt, data, _ => (data.length : Int)
  | .decrypt, _, r => (r.out.length : Int)

/-- The read/crypt/write loop of `runAEAD`, with the per-family data abstracted
out: `cf` is the per-chunk cryptographic call, `nonce`/`adChunk` give the nonce
and associated data of data chunk `i`, `adFinal i cb` gives the associated data
of the final chunk when the counter is `i` and `cryptedBytes` is `cb`.
`readSize` is `chunkSize + tagLengthIfDecrypting` (the per-iteration read),
`tagIfDec` is `tagLengthIfDecrypting`. Each iteration takes a window of up to
`readSize` bytes, splits off the final `tagIfDec` bytes (`subarray` semantics),
pushes them back onto the stream (`reader.unshift`), and either processes a data
chunk or — when past chunk 0 nothing remains — processes the final, summary-tag
chunk and stops. The fuel only bounds the iteration count; every theorem below
supplies enough of it. -/
def runAEADLoop (cf : Bytes → Bytes → Bytes → Except String Bytes)
    (nonce adChunk : Nat → Bytes) (adFinal : Nat → Int → Bytes)
    (readSize tagIfDec : Nat) :
    Nat → Bytes → Nat → Int → Except String LoopOut
  | 0, _, _, _ => .error "aead loop stalled"
  | fuel + 1, data, idx, cryptedBytes =>
    let window := data.take readSize
    let finalChunk := finalChunkOf tagIfDec window
    let chunk := chunkOf tagIfDec window
    if idx = 0 ∨ chunk ≠ [] then
      match cf chunk (nonce idx) (adChunk idx) with
      | .error e => .error e
      | .ok res =>
        match runAEADLoop cf nonce adChunk adFinal readSize tagIfDec fuel
            (finalChunk ++ data.drop window.length) (idx + 1)
            (cryptedBytes + (chunk.length : Int) - (tagIfDec : Int)) with
        | .error e => .error e
        | .ok rest => .ok ⟨res ++ rest.out, ⟨chunk, nonce idx, adChunk idx⟩ :: rest.calls⟩
    else
      match cf finalChunk (nonce idx) (adFinal idx cryptedBytes) with
      | .error e => .error e
      | .ok res => .ok ⟨res, [⟨finalChunk, nonce idx, adFinal idx cryptedBytes⟩]⟩

/-- The associated-data head of a SEIPD packet (also the HKDF `info`). -/
def seipdAdHead (p : SEIPDPacket) : Bytes :=
  adataHead seipdTag p.version p.cipherAlgorithm p.aeadAlgorithm p.chunkSizeByte

/-- The HKDF output `computeHKDF(sha256, key, salt, info, keySize + ivLength)`. -/
def seipdDerived (P : Primitives) (mode : AEADMode) (key : Bytes) (p : SEIPDPacket) : Bytes :=
  P.hkdf key p.salt (seipdAdHead p) (P.keySize p.cipherAlgorithm + mode.ivLength)

/-- The derived message key (first `keySize` bytes of the HKDF output). -/
def seipdDerivedKey (P : Primitives) (mode : AEADMode) (key : Bytes) (p : SEIPDPacket) : Bytes :=
  (seipdDerived P mode key p).take (P.keySize p.cipherAlgorithm)

/-- The derived IV: the remaining HKDF bytes with the last eight zeroed. -/
def seipdIVBase (P : Primitives) (mode : AEADMode) (key : Bytes) (p : SEIPDPacket) : Bytes :=
  zeroLast8 ((seipdDerived P mode key p).drop (P.keySize p.cipherAlgorithm))

/-- `runAEAD(packet, fn, key, data)` from the SEIPD source file. A packet that
is neither a version-2 SEIPD packet nor an AEAD-encrypted-data packet is
rejected. For SEIPD v2 the message key and IV are derived by HKDF over the
salt and associated-data head; for AEADP the packet IV and session key are used
directly and the chunk index also enters the associated data. The `.out` field
of the result is the transformed byte sequence. -/
def runAEAD (mode : AEADMode) (P : Primitives) (packet : AEADPacketArg)
    (dir : Direction) (key data : Bytes) : Except String LoopOut :=
  match packet with
  | .seipd p =>
    if p.version = 2 then
      let tdec := if dir = .decrypt then mode.tagLength else 0
      let n := 2 ^ (p.chunkSizeByte + 6)
      let hd := seipdAdHead p
      runAEADLoop (cryptFn mode dir p.cipherAlgorithm (seipdDerivedKey P mode key p))
        (seipdNonce (seipdIVBase P mode key p)) (fun _ => hd)
        (fun _ cb => hd ++ List.replicate 4 0 ++ be32i cb)
        (n + tdec + tdec) tdec (data.length + 2) data 0 0
    else .error "Unexpected packet type"
  | .aeadp p =>
    let tdec := if dir = .decrypt then mode.tagLength else 0
    let n := 2 ^ (p.chunkSizeByte + 6)
    let hd := adataHead aeadpTag p.version p.cipherAlgorithm p.aeadAlgorithm p.chunkSizeByte
    runAEADLoop (cryptFn mode dir p.cipherAlgorithm key)
      (aeadpNonce p.iv) (fun i => hd ++ chunkIndexField i)
      (fun i cb => hd ++ chunkIndexField i ++ List.replicate 4 0 ++ be32i cb)
      (n + tdec + tdec) tdec (data.length + 2) data 0 0

/-! ## SEIPD packet codec: encrypt / decrypt / read -/

/-- The configuration surface consumed by the SEIPD source file. -/
structure Config where
  aeadChunkSizeByte : Nat
  allowUnauthenticatedStream : Bool
deriving DecidableEq, Repr

/-- What `decrypt` hands onward: the bytes passed to the inner packet-list
parser, and — in the opt-in unauthenticated-streaming mode — the integrity
error that surfaces only when the consumer drains the stream. -/
structure DecryptResult where
  packets : Bytes
  drainError : Option String
deriving DecidableEq, Repr

/-- The two-byte legacy modification-detection-code packet `[0xD3, 0x14]`. -/
def mdcBytes : Bytes := [0xD3, 0x14]

/-- `SymEncryptedIntegrityProtectedDataPacket.encrypt(sessionKeyAlgorithm, key,
config)`. Randomness is made explicit: `saltRand` is the 32-byte salt drawn for
v2, `prefixRand` the random block drawn for the v1 CFB prefix (the source's
`getPrefixRandom` re-injects its last two bytes). -/
def seipdEncrypt (P : Primitives) (mode : AEADMode) (pkt : SEIPDPacket)
    (alg : Nat) (key : Bytes) (cfg : Config) (saltRand prefixRand : Bytes) :
    Except String SEIPDPacket :=
  if key.length ≠ P.keySize alg then .error "Unexpected session key size"
  else
    let bytes := pkt.packets
    if pkt.version = 2 then
      let pkt2 := { pkt with cipherAlgorithm := alg, salt := saltRand,
                             chunkSizeByte := cfg.aeadChunkSizeByte }
      (runAEAD mode P (.seipd pkt2) .encrypt key bytes).map
        (fun r => { pkt2 with encrypted := r.out })
    else
      let pfx := prefixRand ++ prefixRand.drop (prefixRand.length - 2)
      let tohash := pfx ++ bytes ++ mdcBytes
      let plaintext := tohash ++ P.sha1 tohash
      .ok { pkt with encrypted :=
              P.cfbEncrypt alg key plaintext (List.replicate (P.blockSize alg) 0) }

/-- `SymEncryptedIntegrityProtectedDataPacket.decrypt(sessionKeyAlgorithm, key,
config)`. `isStream` records whether `this.encrypted` is an actual stream (the
condition of the source's `util.isStream(encrypted)` check); together with
`config.allowUnauthenticatedStream` it selects the deferred-error streaming
relaxation in which the v1 integrity failure surfaces only at the tail of the
stream (`drainError`) instead of failing the call. -/
def seipdDecrypt (P : Primitives) (mode : AEADMode) (pkt : SEIPDPacket)
    (alg : Nat) (key : Bytes) (cfg : Config) (isStream : Bool) :
    Except String DecryptResult :=
  if key.length ≠ P.keySize alg then .error "Unexpected session key size"
  else if pkt.version = 2 then
    if pkt.cipherAlgorithm ≠ alg then .error "Unexpected session key algorithm"
    else
      (runAEAD mode P (.seipd pkt) .decrypt key pkt.encrypted).map
        (fun r => { packets := r.out, drainError := none })
  else
    let decrypted := P.cfbDecrypt alg key pkt.encrypted (List.replicate (P.blockSize alg) 0)
    let realHash := decrypted.drop (decrypted.length - 20)
    let tohash := decrypted.take (decrypted.length - 20)
    let bytes := tohash.drop (P.blockSize alg + 2)
    let packetbytes := bytes.take (bytes.length - 2)
    if P.sha1 tohash = realHash then
      .ok { packets := packetbytes, drainError := none }
    else if isStream && cfg.allowUnauthenticatedStream then
      .ok { packets := packetbytes, drainError := some "Modification detected." }
    else .error "Modification detected."

/-- Parse failure of `SymEncryptedIntegrityProtectedDataPacket.read`: an
unsupported version byte (`none` when the input is already exhausted, so the
version read is `undefined`). -/
inductive ReadError where
  | unsupportedVersion (v : Option Nat)
deriving DecidableEq, Repr

/-- The packet state produced by `read`: on a version-2 packet the header
fields are read in fixed order; a field read past the end of the input is
`undefined` (`none`), mirroring the stream reader. -/
structure ParsedSEIPD where
  version : Nat
  cipherAlgorithm : Option Nat
  aeadAlgorithm : Option Nat
  chunkSizeByte : Option Nat
  salt : Option Bytes
  encrypted : Bytes
deriving DecidableEq, Repr

/-- `reader.readBytes(k)`: up to `k` bytes, `undefined` on an exhausted
stream. -/
def readBytesUpTo (k : Nat) (l : Bytes) : Option Bytes :=
  match l with
  | [] => none
  | _ => some (l.take k)

/-- `SymEncryptedIntegrityProtectedDataPacket.read(bytes)`: the version byte
must be 1 or 2; version 2 then reads, in order, the cipher algorithm byte, the
AEAD algorithm byte, the chunk size byte and 32 bytes of salt; the remainder of
the packet is the opaque ciphertext payload. -/
def seipdRead (bytes : Bytes) : Except ReadError ParsedSEIPD :=
  match bytes with
  | [] => .error (.unsupportedVersion none)
  | v :: rest =>
    if v = 1 ∨ v = 2 then
      if v = 2 then
        .ok { version := v
              cipherAlgorithm := rest[0]?
              aeadAlgorithm := rest[1]?
              chunkSizeByte := rest[2]?
              salt := readBytesUpTo 32 (rest.drop 3)
              encrypted := (rest.drop 3).drop 32 }
      else
        .ok { version := v, cipherAlgorithm := none, aeadAlgorithm := none,
              chunkSizeByte := none, salt := none, encrypted := rest }
    else .error (.unsupportedVersion (some v))

/-! ## Specification-side description of an encryption run

`encResult` describes, closed-form, what the loop produces on encryption: the
plaintext is split into `2^(chunkSizeByte+6)`-byte chunks (a sole, possibly
empty chunk when it is no longer than one chunk), each encrypted under its
per-chunk nonce and associated data, followed by the final empty chunk under
the length-qualified associated data. -/

/-- Closed-form trace and output of an encryption run of the loop starting at
chunk index `idx` with `cryptedBytes = cb`. -/
def encResult (encf : Bytes → Bytes → Bytes → Bytes) (nonce adChunk : Nat → Bytes)
    (adFinal : Nat → Int → Bytes) (n : Nat) (pt : Bytes) (idx : Nat) (cb : Int) : LoopOut :=
  if pt.length ≤ n ∨ n = 0 then
    let fin := adFinal (idx + 1) (cb + (pt.length : Int))
    ⟨encf pt (nonce idx) (adChunk idx) ++ encf [] (nonce (idx + 1)) fin,
     [⟨pt, nonce idx, adChunk idx⟩, ⟨[], nonce (idx + 1), fin⟩]⟩
  else
    let c := pt.take n
    let rest := encResult encf nonce adChunk adFinal n (pt.drop n) (idx + 1)
        (cb + (c.length : Int))
    ⟨encf c (nonce idx) (adChunk idx) ++ rest.out,
     ⟨c, nonce idx, adChunk idx⟩ :: rest.calls⟩
termination_by pt.length
decreasing_by
  simp only [List.length_drop]
  omega

/-! ## Concrete instances used to exercise the theorems on closed inputs -/

/-- A toy AEAD tag: sixteen copies of a checksum of every input. -/
def toyTag (alg : Nat) (key pt nonce ad : Bytes) : Bytes :=
  List.replicate 16 ((alg + key.sum + pt.sum + pt.length + nonce.sum + ad.sum) % 256)

/-- A toy AEAD mode satisfying the collaborator interface laws: ciphertext is
plaintext followed by the 16-byte tag; decryption checks the tag. -/
def toyMode : AEADMode where
  tagLength := 16
  ivLength := 12
  enc := fun alg key pt nonce ad => pt ++ toyTag alg key pt nonce ad
  dec := fun alg key ct nonce ad =>
    if 16 ≤ ct.length then
      if ct.drop (ct.length - 16) = toyTag alg key (ct.take (ct.length - 16)) nonce ad then
        some (ct.take (ct.length - 16))
      else none
    else none

/-- Toy external primitives satisfying the collaborator interface laws. -/
def toyPrims : Primitives where
  keySize := fun _ => 16
  blockSize := fun _ => 16
  hkdf := fun ikm salt info len =>
    (List.range len).map (fun i => (i + ikm.sum + salt.sum + info.sum) % 256)
  sha1 := fun data => List.replicate 20 ((data.sum + data.length) % 256)
  cfbEncrypt := fun _ _ data _ => data.map (fun x => x + 1)
  cfbDecrypt := fun _ _ data _ => data.map (fun x => x - 1)

/-- A toy one-block cipher (length preserving on blocks). -/
def toyBlockCipher : Bytes → Bytes := fun b => b.map (fun x => (x + 1) % 256)

/-- Witness fixture: a v2 packet holding a 3-byte inner-packet sequence. -/
def wPacketV2 : SEIPDPacket :=
  { version := 2, cipherAlgorithm := 9, aeadAlgorithm := 2, chunkSizeByte := 0,
    salt := [], encrypted := [], packets := [1, 2, 3] }

/-- Witness fixture: a v1 packet. -/
def wPacketV1 : SEIPDPacket :=
  { version := 1, cipherAlgorithm := 0, aeadAlgorithm := 0, chunkSizeByte := 0,
    salt := [], encrypted := [], packets := [1, 2, 3] }

/-- Witness fixture: a v2 packet with chunk-size byte 0 (64-byte chunks). -/
def wPacketC6 : SEIPDPacket :=
  { version := 2, cipherAlgorithm := 7, aeadAlgorithm := 2, chunkSizeByte := 0,
    salt := List.replicate 32 1, encrypted := [], packets := [] }

/-- Witness fixture: a 16-byte session key. -/
def wKey : Bytes := List.replicate 16 0

/-- Witness fixture: default configuration. -/
def wCfg : Config := { aeadChunkSizeByte := 0, allowUnauthenticatedStream := false }

/-! # Theorems -/

theorem blockLength_eq : blockLength = 16 := rfl

theorem doubleGo_length (m : Nat) (l : List Nat) : (doubleGo m l).length = l.length := by
  induction l with
  | nil => rfl
  | cons x xs ih =>
    cases xs with
    | nil => rfl
    | cons y ys => simpa [doubleGo] using ih

theorem double_length (l : Bytes) : (double l).length = l.length := by
  cases l with
  | nil => rfl
  | cons a rest => simpa [double] using doubleGo_length _ _

theorem CBC_nil (E : Bytes → Bytes) (iv : Bytes) : CBC E iv [] = [] := by
  rw [CBC]
  rfl

theorem CBC_cons (E : Bytes → Bytes) (iv : Bytes) (pt : Bytes) (h : pt ≠ []) :
    CBC E iv pt =
      E (List.zipWith Nat.xor iv (pt.take blockLength)) ++
        CBC E (E (List.zipWith Nat.xor iv (pt.take blockLength))) (pt.drop blockLength) := by
  rw [CBC]
  simp [h]

theorem toBlocks_of_le (m : Bytes) (h : m.length ≤ blockLength) : toBlocks m = [m] := by
  rw [toBlocks]
  simp [h]

theorem toBlocks_of_gt (m : Bytes) (h : blockLength < m.length) :
    toBlocks m = m.take blockLength :: toBlocks (m.drop blockLength) := by
  rw [toBlocks]
  simp [Nat.not_le.mpr h]

theorem lastN_append (l₁ l₂ : Bytes) (k : Nat) (h : k ≤ l₂.length) :
    lastN (l₁ ++ l₂) k = lastN l₂ k := by
  unfold lastN
  rw [List.length_append, show l₁.length + l₂.length - k = l₁.length + (l₂.length - k) by omega,
    List.drop_append]

/-- CBC over an abstract block cipher: on a nonempty message whose length is a
multiple of the block length, the ciphertext has the same length and its last
block equals the CBC-MAC fold over the blocks. -/
theorem CBC_blocks (E : Bytes → Bytes)
    (hE : ∀ b : Bytes, b.length = blockLength → (E b).length = blockLength) :
    ∀ (N : Nat) (m iv : Bytes), m.length ≤ N → m ≠ [] →
      m.length % blockLength = 0 → iv.length = blockLength →
      (CBC E iv m).length = m.length ∧
        lastN (CBC E iv m) blockLength =
          (toBlocks m).foldl (fun prev blk => E (List.zipWith Nat.xor prev blk)) iv := by
  intro N
  induction N with
  | zero =>
    intro m iv hN hne _ _
    exact absurd (List.length_eq_zero.mp (Nat.le_zero.mp hN)) hne
  | succ N ih =>
    intro m iv hN hne hmod hiv
    simp only [blockLength] at hmod hiv
    have hlen : 0 < m.length := List.length_pos.mpr hne
    have hble : 16 ≤ m.length := by omega
    have hzip : (List.zipWith Nat.xor iv (m.take blockLength)).length = blockLength := by
      simp only [List.length_zipWith, List.length_take, blockLength, hiv]
      omega
    have hc : (E (List.zipWith Nat.xor iv (m.take blockLength))).length = 16 := hE _ hzip
    rcases Nat.lt_or_ge 16 m.length with hgt | hle2
    · -- more than one block
      have hd : m.drop blockLength ≠ [] := by
        intro hcon
        have := congrArg List.length hcon
        simp only [List.length_drop, List.length_nil, blockLength] at this
        omega
      have hdmod : (m.drop blockLength).length % blockLength = 0 := by
        simp only [List.length_drop, blockLength]
        omega
      have hdle : (m.drop blockLength).length ≤ N := by
        simp only [List.length_drop, blockLength]
        omega
      obtain ⟨ihlen, ihtag⟩ := ih (m.drop blockLength)
        (E (List.zipWith Nat.xor iv (m.take blockLength))) hdle hd hdmod hc
      rw [CBC_cons E iv m hne]
      constructor
      · rw [List.length_append, hc, ihlen]
        simp only [List.length_drop, blockLength]
        omega
      · rw [lastN_append _ _ _
          (by rw [ihlen]; simp only [List.length_drop, blockLength]; omega)]
        rw [ihtag, toBlocks_of_gt m hgt]
        rfl
    · -- exactly one block
      have hm16 : m.length = 16 := le_antisymm hle2 hble
      have htk : m.take blockLength = m := List.take_of_length_le hle2
      have hdrop : m.drop blockLength = [] := by
        apply List.eq_nil_of_length_eq_zero
        simp only [List.length_drop, blockLength]
        omega
      have hc2 : (E (List.zipWith Nat.xor iv m)).length = 16 := htk ▸ hc
      rw [CBC_cons E iv m hne, hdrop, CBC_nil, List.append_nil, htk]
      refine ⟨by rw [hc2, hm16], ?_⟩
      rw [toBlocks_of_le m hle2]
      unfold lastN
      rw [hc2]
      simp

theorem rightXORMut_eq_xorIntoLast (d s : Bytes) : rightXORMut d s = xorIntoLast d s := rfl

theorem rightXORMut_length (data padding : Bytes) (hp : padding.length = blockLength)
    (hd : blockLength ≤ data.length) :
    (rightXORMut data padding).length = data.length := by
  unfold rightXORMut
  simp [List.length_append, List.length_take, List.length_zipWith, List.length_drop, hp]
  omega

/-- C4: `CMAC` from the source computes the OMAC1 tag per the reference
definition: subkeys by doubling in GF(2^128), `K1` into the last block of a
positive multiple-of-block-length message, otherwise 10*-padding and `K2`; the
tag is the last ciphertext block of a zero-IV CBC-MAC; the empty message is
treated as not a multiple of the block length and padded. -/
theorem claim4_cmac_matches_omac1 (E : Bytes → Bytes)
    (hE : ∀ b : Bytes, b.length = blockLength → (E b).length = blockLength)
    (msg : Bytes) : CMAC E msg = cmacRef E msg := by
  have hz : zeroBlock.length = blockLength := by simp [zeroBlock]
  have hL : (E zeroBlock).length = blockLength := hE _ hz
  have hK1 : (double (E zeroBlock)).length = blockLength := by rw [double_length, hL]
  have hK2 : (double (double (E zeroBlock))).length = blockLength := by
    rw [double_length, hK1]
  unfold CMAC cmacRef
  simp only [rightXORMut_eq_xorIntoLast]
  have hrep : blockLength - msg.length % blockLength - 1 =
      blockLength - 1 - msg.length % blockLength := by omega
  rw [pad]
  simp only [rightXORMut_eq_xorIntoLast, hrep]
  by_cases hcond : msg.length ≠ 0 ∧ msg.length % blockLength = 0
  · rw [if_pos hcond]
    have hble : blockLength ≤ msg.length := by
      have h1 := hcond.1
      have h2 := hcond.2
      simp only [blockLength] at h2 ⊢
      omega
    have hlen : (xorIntoLast msg (double (E zeroBlock))).length = msg.length := by
      rw [← rightXORMut_eq_xorIntoLast]
      exact rightXORMut_length _ _ hK1 hble
    have hne : xorIntoLast msg (double (E zeroBlock)) ≠ [] := by
      intro hcon
      have h0 := congrArg List.length hcon
      rw [hlen] at h0
      simp only [List.length_nil] at h0
      exact hcond.1 h0
    have hmod : (xorIntoLast msg (double (E zeroBlock))).length % blockLength = 0 := by
      rw [hlen]
      exact hcond.2
    exact (CBC_blocks E hE _ _ zeroBlock le_rfl hne hmod hz).2
  · rw [if_neg hcond]
    set base := msg ++ 0x80 :: List.replicate (blockLength - 1 - msg.length % blockLength) 0
      with hbase
    have hbaselen : base.length = msg.length + (blockLength - msg.length % blockLength) := by
      rw [hbase]
      simp only [List.length_append, List.length_cons, List.length_replicate]
      simp only [blockLength]
      omega
    have hble : blockLength ≤ base.length := by
      rw [hbaselen]
      simp only [blockLength]
      omega
    have hlen : (xorIntoLast base (double (double (E zeroBlock)))).length = base.length := by
      rw [← rightXORMut_eq_xorIntoLast]
      exact rightXORMut_length _ _ hK2 hble
    have hne : xorIntoLast base (double (double (E zeroBlock))) ≠ [] := by
      intro hcon
      have h0 := congrArg List.length hcon
      rw [hlen, hbaselen] at h0
      simp only [blockLength, List.length_nil] at h0
      omega
    have hmod : (xorIntoLast base (double (double (E zeroBlock)))).length % blockLength = 0 := by
      rw [hlen, hbaselen]
      simp only [blockLength]
      omega
    exact (CBC_blocks E hE _ _ zeroBlock le_rfl hne hmod hz).2

theorem toyBlockCipher_length : ∀ b : Bytes, b.length = blockLength →
    (toyBlockCipher b).length = blockLength := by
  intro b hb
  simpa [toyBlockCipher] using hb

/-- Witness for C4 at a concrete block cipher and message. -/
theorem claim4_witness :
    (∀ b : Bytes, b.length = blockLength → (toyBlockCipher b).length = blockLength) ∧
      CMAC toyBlockCipher [1, 2, 3] = cmacRef toyBlockCipher [1, 2, 3] :=
  ⟨toyBlockCipher_length, claim4_cmac_matches_omac1 toyBlockCipher toyBlockCipher_length [1, 2, 3]⟩

/-! ## C10: runAEAD packet-type check -/

/-- C10: `runAEAD` rejects every packet that is neither a version-2 SEIPD
packet nor an AEAD-encrypted-data packet — in particular every version-1 SEIPD
packet — with an `Unexpected packet type` error, for every direction, key and
data (so before any key derivation or cryptographic work, whose inputs the
result provably does not depend on). -/
theorem claim10_unexpected_packet_type (mode : AEADMode) (P : Primitives)
    (p : SEIPDPacket) (dir : Direction) (key data : Bytes) (hv : p.version ≠ 2) :
    runAEAD mode P (.seipd p) dir key data = .error "Unexpected packet type" := by
  simp [runAEAD, hv]

/-- Witness for C10: a version-1 SEIPD packet. -/
theorem claim10_witness :
    wPacketV1.version ≠ 2 ∧
      runAEAD toyMode toyPrims (.seipd wPacketV1) .decrypt wKey [] =
        .error "Unexpected packet type" :=
  ⟨by decide,
    claim10_unexpected_packet_type toyMode toyPrims wPacketV1 .decrypt wKey [] (by decide)⟩

/-! ## C3: session-key size enforcement -/

/-- C3: with a session key whose length differs from the cipher's expected key
size, both `encrypt` and `decrypt` fail with the session-key-size error; the
result is the same for every packet state (in particular it does not read the
`encrypted` field) and no cryptographic collaborator input affects it, since the
equations hold for all of them. -/
theorem claim3_session_key_size (P : Primitives) (mode : AEADMode)
    (pkt : SEIPDPacket) (alg : Nat) (key : Bytes) (cfgE cfgD : Config)
    (saltRand prefixRand : Bytes) (isStream : Bool)
    (hk : key.length ≠ P.keySize alg) :
    seipdEncrypt P mode pkt alg key cfgE saltRand prefixRand =
        .error "Unexpected session key size" ∧
      seipdDecrypt P mode pkt alg key cfgD isStream =
        .error "Unexpected session key size" := by
  constructor
  · simp [seipdEncrypt, hk]
  · simp [seipdDecrypt, hk]

/-- Witness for C3: an empty key against a 16-byte key size. -/
theorem claim3_witness :
    ([] : Bytes).length ≠ toyPrims.keySize 0 ∧
      (seipdEncrypt toyPrims toyMode wPacketV1 0 [] wCfg [] [] =
          .error "Unexpected session key size" ∧
        seipdDecrypt toyPrims toyMode wPacketV1 0 [] wCfg false =
          .error "Unexpected session key size") :=
  ⟨by decide,
    claim3_session_key_size toyPrims toyMode wPacketV1 0 [] wCfg wCfg [] [] false (by decide)⟩

/-! ## C2: v1 digest verification -/

/-- C2: version-1 decryption CFB-decrypts, splits the last 20 bytes off as the
claimed digest, recomputes SHA-1 over everything preceding it, and fails with
the integrity error unless the digests match byte for byte; on a mismatch no
plaintext is yielded — except in the explicit opt-in unauthenticated-streaming
relaxation, where the plaintext flows but the failure surfaces when the
consumer drains the stream (`drainError`). On a match the prefix and the
two-byte marker are stripped and the rest goes to the packet-list parser. -/
theorem claim2_v1_integrity (P : Primitives) (mode : AEADMode) (pkt : SEIPDPacket)
    (alg : Nat) (key : Bytes) (cfg : Config) (isStream : Bool)
    (D claimed recomputed stripped pb : Bytes)
    (hv : pkt.version = 1) (hkey : key.length = P.keySize alg)
    (hD : D = P.cfbDecrypt alg key pkt.encrypted (List.replicate (P.blockSize alg) 0))
    (hclaimed : claimed = D.drop (D.length - 20))
    (hrecomputed : recomputed = P.sha1 (D.take (D.length - 20)))
    (hstripped : stripped = (D.take (D.length - 20)).drop (P.blockSize alg + 2))
    (hpb : pb = stripped.take (stripped.length - 2)) :
    (recomputed = claimed →
      seipdDecrypt P mode pkt alg key cfg isStream = .ok ⟨pb, none⟩) ∧
    (recomputed ≠ claimed → (isStream && cfg.allowUnauthenticatedStream) = false →
      seipdDecrypt P mode pkt alg key cfg isStream = .error "Modification detected.") ∧
    (recomputed ≠ claimed → (isStream && cfg.allowUnauthenticatedStream) = true →
      seipdDecrypt P mode pkt alg key cfg isStream =
        .ok ⟨pb, some "Modification detected."⟩) := by
  subst hD hclaimed hrecomputed hstripped hpb
  have hv2 : pkt.version ≠ 2 := by omega
  have hkne : ¬ key.length ≠ P.keySize alg := by simp [hkey]
  refine ⟨?_, ?_, ?_⟩
  · intro h
    simp only [seipdDecrypt, if_neg hkne, if_neg hv2]
    rw [if_pos h]
  · intro h hflag
    simp only [seipdDecrypt, if_neg hkne, if_neg hv2]
    rw [if_neg h, hflag]
    simp
  · intro h hflag
    simp only [seipdDecrypt, if_neg hkne, if_neg hv2]
    rw [if_neg h, hflag]
    simp

/-- Witness for C2: a concrete v1 packet on which the digests mismatch, so the
integrity error is raised. -/
theorem claim2_witness :
    wPacketV1.version = 1 ∧ wKey.length = toyPrims.keySize 0 ∧
      toyPrims.sha1 (([] : Bytes).take 0) ≠ ([] : Bytes).drop 0 ∧
      seipdDecrypt toyPrims toyMode wPacketV1 0 wKey wCfg false =
        .error "Modification detected." := by
  refine ⟨rfl, by decide, by decide, ?_⟩
  exact (claim2_v1_integrity toyPrims toyMode wPacketV1 0 wKey wCfg false
      [] [] (toyPrims.sha1 []) [] [] rfl (by decide) (by decide) (by decide) (by decide)
      (by decide) (by decide)).2.1 (by decide) (by decide)

/-! ## C8: read parses the envelope header -/

/-- C8: `read` parses the first byte as the version and fails with the
unsupported-version error for any value other than 1 or 2 (including an empty
input, whose version read is `undefined`); for version 2 it parses, in fixed
order, one cipher-algorithm byte, one AEAD-algorithm byte, one chunk-size byte
and a 32-byte salt, and stores the entire remainder as the opaque ciphertext
payload. -/
theorem claim8_read_envelope :
    seipdRead [] = .error (.unsupportedVersion none) ∧
    (∀ (v : Nat) (rest : Bytes), v ≠ 1 → v ≠ 2 →
      seipdRead (v :: rest) = .error (.unsupportedVersion (some v))) ∧
    (∀ (c a s : Nat) (r : Bytes), 32 ≤ r.length →
      seipdRead (2 :: c :: a :: s :: r) =
        .ok { version := 2, cipherAlgorithm := some c, aeadAlgorithm := some a,
              chunkSizeByte := some s, salt := some (r.take 32), encrypted := r.drop 32 }) ∧
    (∀ rest : Bytes, seipdRead (1 :: rest) =
      .ok { version := 1, cipherAlgorithm := none, aeadAlgorithm := none,
            chunkSizeByte := none, salt := none, encrypted := rest }) := by
  refine ⟨rfl, ?_, ?_, ?_⟩
  · intro v rest h1 h2
    simp [seipdRead, h1, h2]
  · intro c a s r hr
    cases r with
    | nil => simp at hr
    | cons x xs => simp [seipdRead, readBytesUpTo]
  · intro rest
    simp [seipdRead]

/-- Witness for C8 at concrete inputs: version byte 7 is rejected; a version-2
header with a 32-byte salt and a 2-byte payload is parsed field by field. -/
theorem claim8_witness :
    (7 : Nat) ≠ 1 ∧ (7 : Nat) ≠ 2 ∧ 32 ≤ (List.replicate 32 5 ++ [77, 88]).length ∧
      seipdRead (7 :: [1, 2, 3]) = .error (.unsupportedVersion (some 7)) ∧
      seipdRead (2 :: 9 :: 2 :: 6 :: (List.replicate 32 5 ++ [77, 88])) =
        .ok { version := 2, cipherAlgorithm := some 9, aeadAlgorithm := some 2,
              chunkSizeByte := some 6,
              salt := some ((List.replicate 32 5 ++ [77, 88]).take 32),
              encrypted := (List.replicate 32 5 ++ [77, 88]).drop 32 } := by
  refine ⟨by decide, by decide, by decide, ?_, ?_⟩
  · exact claim8_read_envelope.2.1 7 [1, 2, 3] (by decide) (by decide)
  · exact claim8_read_envelope.2.2.1 9 2 6 (List.replicate 32 5 ++ [77, 88]) (by decide)

/-! ## C7: 32-bit big-endian chunk counter -/

theorem be32n_congr (a b : Nat) (h : a % 2 ^ 32 = b % 2 ^ 32) : be32n a = be32n b := by
  simp only [be32n, List.cons.injEq, and_true]
  refine ⟨?_, ?_, ?_, ?_⟩ <;> omega

/-- C7: the chunk counter is written as a 32-bit big-endian value at a fixed
offset — for the SEIPD v2 variant over the final four bytes of the derived IV,
for the raw-AEAD sibling over the last four bytes of the eight-byte chunk-index
field of the associated data (whose first four bytes stay zero). Consequently
the counter wraps at 2^32: counters that differ by 2^32 produce identical
nonces and associated data, so messages exceeding 2^32 chunks would not be
handled correctly without widening this increment. -/
theorem claim7_counter_is_32bit :
    ∀ (ivb iv : Bytes) (i : Nat),
      seipdNonce ivb (i + 1) = ivb.take (ivb.length - 4) ++ be32n (i + 1) ∧
      seipdNonce ivb (i + 1 + 2 ^ 32) = seipdNonce ivb (i + 1) ∧
      (seipdNonce ivb (i + 1)).take (ivb.length - 4) = ivb.take (ivb.length - 4) ∧
      chunkIndexField (i + 1 + 2 ^ 32) = chunkIndexField (i + 1) ∧
      (chunkIndexField (i + 1)).take 4 = List.replicate 4 0 ∧
      aeadpNonce iv (i + 1 + 2 ^ 32) = aeadpNonce iv (i + 1) := by
  intro ivb iv i
  have h1 : i + 1 ≠ 0 := Nat.succ_ne_zero i
  have h2 : i + 1 + 2 ^ 32 ≠ 0 := by omega
  have hwrap : be32n (i + 1 + 2 ^ 32) = be32n (i + 1) := be32n_congr _ _ (by omega)
  have hshape : seipdNonce ivb (i + 1) = ivb.take (ivb.length - 4) ++ be32n (i + 1) := by
    rw [seipdNonce, if_neg h1]
  have hcif : chunkIndexField (i + 1 + 2 ^ 32) = chunkIndexField (i + 1) := by
    rw [chunkIndexField, chunkIndexField, hwrap]
  refine ⟨hshape, ?_, ?_, hcif, ?_, ?_⟩
  · rw [seipdNonce, seipdNonce, if_neg h2, if_neg h1, hwrap]
  · rw [hshape]
    apply List.take_left'
    simp [List.length_take]
  · apply List.take_left'
    simp [chunkIndexField]
  · rw [aeadpNonce, aeadpNonce, hcif]

/-! ## Window-splitting lemmas for the chunked loop -/

theorem relIndex_zero (L : Nat) : relIndex L 0 = 0 := by
  simp [relIndex]

theorem relIndex_len (L : Nat) : relIndex L (L : Int) = L := by
  simp [relIndex]

theorem relIndex_sub_of_le {L t : Nat} (h : t ≤ L) :
    relIndex L ((L : Int) - (t : Int)) = L - t := by
  unfold relIndex
  rw [if_neg (by omega)]
  omega

theorem relIndex_sub_of_gt {L t : Nat} (h : L < t) :
    relIndex L ((L : Int) - (t : Int)) = 2 * L - t := by
  unfold relIndex
  rw [if_pos (by omega)]
  omega

theorem chunkOf_take (t : Nat) (w : Bytes) :
    chunkOf t w = w.take (relIndex w.length ((w.length : Int) - (t : Int))) := by
  unfold chunkOf jsSub
  rw [relIndex_zero, List.drop_zero]

theorem finalChunkOf_drop (t : Nat) (w : Bytes) :
    finalChunkOf t w = w.drop (relIndex w.length ((w.length : Int) - (t : Int))) := by
  unfold finalChunkOf jsSub
  rw [relIndex_len, List.take_length]

theorem chunkOf_append_finalChunkOf (t : Nat) (w : Bytes) :
    chunkOf t w ++ finalChunkOf t w = w := by
  rw [chunkOf_take, finalChunkOf_drop, List.take_append_drop]

theorem chunkOf_of_le {t : Nat} {w : Bytes} (h : t ≤ w.length) :
    chunkOf t w = w.take (w.length - t) := by
  rw [chunkOf_take, relIndex_sub_of_le h]

theorem finalChunkOf_of_le {t : Nat} {w : Bytes} (h : t ≤ w.length) :
    finalChunkOf t w = w.drop (w.length - t) := by
  rw [finalChunkOf_drop, relIndex_sub_of_le h]

theorem chunkOf_zero (w : Bytes) : chunkOf 0 w = w := by
  rw [chunkOf_of_le (Nat.zero_le _)]
  simp

theorem finalChunkOf_zero (w : Bytes) : finalChunkOf 0 w = [] := by
  rw [finalChunkOf_of_le (Nat.zero_le _)]
  simp

theorem chunkOf_length (t : Nat) (w : Bytes) :
    (chunkOf t w).length = relIndex w.length ((w.length : Int) - (t : Int)) := by
  rw [chunkOf_take, List.length_take]
  unfold relIndex
  split <;> omega

theorem finalChunkOf_length (t : Nat) (w : Bytes) :
    (finalChunkOf t w).length =
      w.length - relIndex w.length ((w.length : Int) - (t : Int)) := by
  rw [finalChunkOf_drop, List.length_drop]

/-- One-step unfolding of `runAEADLoop` at positive fuel. -/
theorem runAEADLoop_succ (cf : Bytes → Bytes → Bytes → Except String Bytes)
    (nonce adChunk : Nat → Bytes) (adFinal : Nat → Int → Bytes)
    (readSize tagIfDec fuel : Nat) (data : Bytes) (idx : Nat) (cb : Int) :
    runAEADLoop cf nonce adChunk adFinal readSize tagIfDec (fuel + 1) data idx cb =
      (if idx = 0 ∨ chunkOf tagIfDec (data.take readSize) ≠ [] then
        match cf (chunkOf tagIfDec (data.take readSize)) (nonce idx) (adChunk idx) with
        | .error e => .error e
        | .ok res =>
          match runAEADLoop cf nonce adChunk adFinal readSize tagIfDec fuel
              (finalChunkOf tagIfDec (data.take readSize) ++ data.drop (data.take readSize).length)
              (idx + 1)
              (cb + ((chunkOf tagIfDec (data.take readSize)).length : Int) - (tagIfDec : Int)) with
          | .error e => .error e
          | .ok rest =>
            .ok ⟨res ++ rest.out,
              ⟨chunkOf tagIfDec (data.take readSize), nonce idx, adChunk idx⟩ :: rest.calls⟩
      else
        match cf (finalChunkOf tagIfDec (data.take readSize)) (nonce idx) (adFinal idx cb) with
        | .error e => .error e
        | .ok res =>
          .ok ⟨res, [⟨finalChunkOf tagIfDec (data.take readSize), nonce idx, adFinal idx cb⟩]⟩) :=
  rfl

/-! ## The encryption runs of the loop compute `encResult` -/

theorem encResult_base (encf : Bytes → Bytes → Bytes → Bytes) (nonce adC : Nat → Bytes)
    (adF : Nat → Int → Bytes) (n : Nat) (pt : Bytes) (idx : Nat) (cb : Int)
    (h : pt.length ≤ n ∨ n = 0) :
    encResult encf nonce adC adF n pt idx cb =
      ⟨encf pt (nonce idx) (adC idx) ++
          encf [] (nonce (idx + 1)) (adF (idx + 1) (cb + (pt.length : Int))),
        [⟨pt, nonce idx, adC idx⟩,
          ⟨[], nonce (idx + 1), adF (idx + 1) (cb + (pt.length : Int))⟩]⟩ := by
  rw [encResult, if_pos h]

theorem encResult_step (encf : Bytes → Bytes → Bytes → Bytes) (nonce adC : Nat → Bytes)
    (adF : Nat → Int → Bytes) (n : Nat) (pt : Bytes) (idx : Nat) (cb : Int)
    (h : ¬(pt.length ≤ n ∨ n = 0)) :
    encResult encf nonce adC adF n pt idx cb =
      ⟨encf (pt.take n) (nonce idx) (adC idx) ++
          (encResult encf nonce adC adF n (pt.drop n) (idx + 1)
            (cb + ((pt.take n).length : Int))).out,
        ⟨pt.take n, nonce idx, adC idx⟩ ::
          (encResult encf nonce adC adF n (pt.drop n) (idx + 1)
            (cb + ((pt.take n).length : Int))).calls⟩ := by
  rw [encResult, if_neg h]

/-- An encryption run of the loop (no tag on reads, the per-chunk call always
succeeds) computes exactly `encResult`, given enough fuel. -/
theorem encLoop_eq (encf : Bytes → Bytes → Bytes → Bytes) (nonce adC : Nat → Bytes)
    (adF : Nat → Int → Bytes) (n : Nat) (hn : 0 < n) :
    ∀ (fuel : Nat) (pt : Bytes) (idx : Nat) (cb : Int),
      (idx = 0 ∨ pt ≠ []) → pt.length + 2 ≤ fuel →
      runAEADLoop (fun x nc ad => .ok (encf x nc ad)) nonce adC adF n 0 fuel pt idx cb =
        .ok (encResult encf nonce adC adF n pt idx cb) := by
  intro fuel
  induction fuel with
  | zero =>
    intro pt idx cb _ hf
    omega
  | succ fuel ih =>
    intro pt idx cb hbr hf
    rw [runAEADLoop_succ]
    have hcz : chunkOf 0 (pt.take n) = pt.take n := chunkOf_zero _
    have hfz : finalChunkOf 0 (pt.take n) = [] := finalChunkOf_zero _
    have hcond : idx = 0 ∨ chunkOf 0 (pt.take n) ≠ [] := by
      rcases hbr with h | h
      · exact Or.inl h
      · right
        rw [hcz]
        intro hcon
        have hl := congrArg List.length hcon
        simp only [List.length_take, List.length_nil] at hl
        have := List.length_pos.mpr h
        omega
    rw [if_pos hcond, hcz, hfz]
    simp only [Nat.cast_zero, sub_zero]
    rcases le_or_lt pt.length n with hle | hgt
    · -- a single (final) data chunk, then the summary chunk
      have htk : pt.take n = pt := List.take_of_length_le hle
      rw [htk, List.nil_append, List.drop_length]
      cases fuel with
      | zero => omega
      | succ f =>
        rw [runAEADLoop_succ]
        have hcond2 : ¬(idx + 1 = 0 ∨ chunkOf 0 (List.take n ([] : Bytes)) ≠ []) := by
          simp [chunkOf_zero]
        rw [if_neg hcond2]
        rw [encResult_base _ _ _ _ _ _ _ _ (Or.inl hle)]
        simp [chunkOf_zero, finalChunkOf_zero]
    · -- a full data chunk, recurse on the remainder
      have hlen : (pt.take n).length = n := by
        rw [List.length_take]
        omega
      have hdata2 : finalChunkOf 0 (pt.take n) ++ pt.drop (pt.take n).length = pt.drop n := by
        rw [hfz, List.nil_append, hlen]
      have hdne : pt.drop n ≠ [] := by
        intro hcon
        have hl := congrArg List.length hcon
        simp only [List.length_drop, List.length_nil] at hl
        omega
      have hfb : (pt.drop n).length + 2 ≤ fuel := by
        simp only [List.length_drop]
        omega
      rw [List.nil_append, hlen]
      rw [ih (pt.drop n) (idx + 1) (cb + (n : Int)) (Or.inr hdne) hfb]
      rw [encResult_step encf nonce adC adF n pt idx cb (by push_neg; omega)]
      rw [hlen]

theorem getLastQ_cons_of_ne_nil {α : Type} (a : α) (l : List α) (h : l ≠ []) :
    (a :: l).getLast? = l.getLast? := by
  cases l with
  | nil => exact absurd rfl h
  | cons b t => exact List.getLast?_cons_cons

theorem cryptFn_encrypt_eq (mode : AEADMode) (alg : Nat) (key : Bytes) :
    cryptFn mode .encrypt alg key = fun x nc ad => .ok (mode.enc alg key x nc ad) := rfl

theorem cryptFn_decrypt_eq (mode : AEADMode) (alg : Nat) (key : Bytes) :
    cryptFn mode .decrypt alg key = decCfOf (mode.dec alg key) := rfl

theorem decCfOf_ok (decf : Bytes → Bytes → Bytes → Option Bytes)
    (x nc ad y : Bytes) (h : decf x nc ad = some y) :
    decCfOf decf x nc ad = .ok y := by
  unfold decCfOf
  rw [h]

/-- A SEIPD v2 encryption run of `runAEAD` computes exactly `encResult` over
the derived key, nonces and associated data. -/
theorem runAEAD_seipd2_encrypt (mode : AEADMode) (P : Primitives) (p : SEIPDPacket)
    (key data : Bytes) (hv : p.version = 2) :
    runAEAD mode P (.seipd p) .encrypt key data =
      .ok (encResult (mode.enc p.cipherAlgorithm (seipdDerivedKey P mode key p))
            (seipdNonce (seipdIVBase P mode key p)) (fun _ => seipdAdHead p)
            (fun _ cb => seipdAdHead p ++ List.replicate 4 0 ++ be32i cb)
            (2 ^ (p.chunkSizeByte + 6)) data 0 0) := by
  have h := encLoop_eq (mode.enc p.cipherAlgorithm (seipdDerivedKey P mode key p))
      (seipdNonce (seipdIVBase P mode key p)) (fun _ => seipdAdHead p)
      (fun _ cb => seipdAdHead p ++ List.replicate 4 0 ++ be32i cb)
      (2 ^ (p.chunkSizeByte + 6)) (Nat.two_pow_pos _) (data.length + 2) data 0 0
      (Or.inl rfl) (by omega)
  simp only [runAEAD]
  rw [if_pos hv]
  exact h

/-- A SEIPD v2 decryption run of `runAEAD` is the loop over the derived key,
nonces and associated data, with tag-qualified reads. -/
theorem runAEAD_seipd2_decrypt (mode : AEADMode) (P : Primitives) (p : SEIPDPacket)
    (key data : Bytes) (hv : p.version = 2) :
    runAEAD mode P (.seipd p) .decrypt key data =
      runAEADLoop (decCfOf (mode.dec p.cipherAlgorithm (seipdDerivedKey P mode key p)))
        (seipdNonce (seipdIVBase P mode key p)) (fun _ => seipdAdHead p)
        (fun _ cb => seipdAdHead p ++ List.replicate 4 0 ++ be32i cb)
        (2 ^ (p.chunkSizeByte + 6) + mode.tagLength + mode.tagLength) mode.tagLength
        (data.length + 2) data 0 0 := by
  simp only [runAEAD]
  rw [if_pos hv]
  rfl

theorem encResult_out_length_ge (encf : Bytes → Bytes → Bytes → Bytes)
    (nonce adC : Nat → Bytes) (adF : Nat → Int → Bytes) (n t : Nat)
    (hlen : ∀ x nc ad, (encf x nc ad).length = x.length + t)
    (pt : Bytes) (idx : Nat) (cb : Int) :
    t ≤ (encResult encf nonce adC adF n pt idx cb).out.length := by
  by_cases h : pt.length ≤ n ∨ n = 0
  · rw [encResult_base _ _ _ _ _ _ _ _ h]
    simp only [List.length_append, hlen]
    omega
  · rw [encResult_step _ _ _ _ _ _ _ _ h]
    simp only [List.length_append, hlen]
    omega

/-- The last primitive call of an encryption run is the final, empty chunk
under the length-qualified associated data. -/
theorem encResult_calls_final (encf : Bytes → Bytes → Bytes → Bytes)
    (nonce adC : Nat → Bytes) (adF : Nat → Int → Bytes) (n : Nat) (hn : 0 < n) :
    ∀ (N : Nat) (pt : Bytes) (idx : Nat) (cb : Int), pt.length ≤ N →
      (encResult encf nonce adC adF n pt idx cb).calls ≠ [] ∧
      ∃ j, (encResult encf nonce adC adF n pt idx cb).calls.getLast? =
          some ⟨[], nonce j, adF j (cb + (pt.length : Int))⟩ := by
  intro N
  induction N with
  | zero =>
    intro pt idx cb hN
    have hpt : pt.length ≤ n ∨ n = 0 := Or.inl (by omega)
    rw [encResult_base _ _ _ _ _ _ _ _ hpt]
    exact ⟨by simp, idx + 1, rfl⟩
  | succ N ih =>
    intro pt idx cb hN
    rcases le_or_lt pt.length n with hle | hgt
    · rw [encResult_base _ _ _ _ _ _ _ _ (Or.inl hle)]
      exact ⟨by simp, idx + 1, rfl⟩
    · rw [encResult_step _ _ _ _ _ _ _ _ (by push_neg; omega)]
      obtain ⟨hne, j, hlast⟩ := ih (pt.drop n) (idx + 1) (cb + ((pt.take n).length : Int))
        (by simp only [List.length_drop]; omega)
      refine ⟨by simp, j, ?_⟩
      rw [getLastQ_cons_of_ne_nil _ _ hne, hlast]
      have harith : cb + ((pt.take n).length : Int) + ((pt.drop n).length : Int) =
          cb + (pt.length : Int) := by
        simp only [List.length_take, List.length_drop]
        push_cast
        omega
      rw [harith]

/-- In every successful run of the loop whose per-chunk call only succeeds on
inputs of at least tag length and strips exactly the tag (every decryption run
under an honest AEAD mode), the trace is nonempty and its last call is the
final chunk under `adFinal` applied to the accumulated plaintext byte count,
which equals the total output length. -/
theorem decLoopInvariant (cf : Bytes → Bytes → Bytes → Except String Bytes)
    (nonce adC : Nat → Bytes) (adF : Nat → Int → Bytes) (readSize t : Nat)
    (hcf : ∀ x nc ad res, cf x nc ad = .ok res → t ≤ x.length ∧ res.length = x.length - t) :
    ∀ (fuel : Nat) (data : Bytes) (idx : Nat) (cb : Int) (r : LoopOut),
      runAEADLoop cf nonce adC adF readSize t fuel data idx cb = .ok r →
      r.calls ≠ [] ∧ ∃ j fc,
        r.calls.getLast? = some ⟨fc, nonce j, adF j (cb + (r.out.length : Int))⟩ := by
  intro fuel
  induction fuel with
  | zero =>
    intro data idx cb r h
    exact absurd h (by simp [runAEADLoop])
  | succ fuel ih =>
    intro data idx cb r h
    rw [runAEADLoop_succ] at h
    by_cases hbr : idx = 0 ∨ chunkOf t (data.take readSize) ≠ []
    · rw [if_pos hbr] at h
      cases hc1 : cf (chunkOf t (data.take readSize)) (nonce idx) (adC idx) with
      | error e => rw [hc1] at h; exact absurd h (by simp)
      | ok res =>
        rw [hc1] at h
        cases hc2 : runAEADLoop cf nonce adC adF readSize t fuel
            (finalChunkOf t (data.take readSize) ++ data.drop (data.take readSize).length)
            (idx + 1)
            (cb + ((chunkOf t (data.take readSize)).length : Int) - (t : Int)) with
        | error e => rw [hc2] at h; exact absurd h (by simp)
        | ok rest =>
          rw [hc2] at h
          simp only [Except.ok.injEq] at h
          subst h
          obtain ⟨hne, j, fc, hlast⟩ := ih _ _ _ _ hc2
          refine ⟨by simp, j, fc, ?_⟩
          rw [getLastQ_cons_of_ne_nil _ _ hne, hlast]
          obtain ⟨hge, hreslen⟩ := hcf _ _ _ _ hc1
          have harith : cb + ((chunkOf t (data.take readSize)).length : Int) - (t : Int) +
              (rest.out.length : Int) = cb + ((res ++ rest.out).length : Int) := by
            simp only [List.length_append, hreslen]
            push_cast
            omega
          rw [harith]
    · rw [if_neg hbr] at h
      cases hc1 : cf (finalChunkOf t (data.take readSize)) (nonce idx) (adF idx cb) with
      | error e => rw [hc1] at h; exact absurd h (by simp)
      | ok res =>
        rw [hc1] at h
        simp only [Except.ok.injEq] at h
        subst h
        push_neg at hbr
        have hchunk : chunkOf t (data.take readSize) = [] := hbr.2
        have hrel : relIndex (data.take readSize).length
            (((data.take readSize).length : Int) - (t : Int)) = 0 := by
          have hcl := chunkOf_length t (data.take readSize)
          rw [hchunk] at hcl
          simp only [List.length_nil] at hcl
          omega
        have hfclen : (finalChunkOf t (data.take readSize)).length =
            (data.take readSize).length := by
          rw [finalChunkOf_length, hrel]
          omega
        obtain ⟨hge, hreslen⟩ := hcf _ _ _ _ hc1
        have hLle : (data.take readSize).length ≤ t := by
          rcases le_or_lt t (data.take readSize).length with hge2 | hlt
          · have := relIndex_sub_of_le hge2
            rw [hrel] at this
            omega
          · omega
        have hres0 : res.length = 0 := by
          rw [hreslen, hfclen]
          omega
        refine ⟨by simp, idx, finalChunkOf t (data.take readSize), ?_⟩
        have hout : (cb + (res.length : Int)) = cb := by
          rw [hres0]
          simp
        simp only [List.getLast?, hout]
        rfl

/-- Decrypting the output of an encryption run with the same nonces and
associated data recovers the plaintext: the loop re-finds every chunk boundary
positionally (all data chunks but the last are full) and validates the final
summary tag under the length-qualified associated data. -/
theorem decLoop_inverts_enc (encf : Bytes → Bytes → Bytes → Bytes)
    (decf : Bytes → Bytes → Bytes → Option Bytes)
    (nonce adC : Nat → Bytes) (adF : Nat → Int → Bytes) (n t : Nat)
    (hn : 0 < n) (ht : 0 < t)
    (hlen : ∀ x nc ad, (encf x nc ad).length = x.length + t)
    (hround : ∀ x nc ad, decf (encf x nc ad) nc ad = some x) :
    ∀ (fuel : Nat) (pt : Bytes) (idx : Nat) (cb : Int),
      (idx = 0 ∨ pt ≠ []) →
      (encResult encf nonce adC adF n pt idx cb).out.length + 2 ≤ fuel →
      ∃ r, runAEADLoop (decCfOf decf) nonce adC adF (n + t + t) t fuel
          (encResult encf nonce adC adF n pt idx cb).out idx cb = .ok r ∧
        r.out = pt := by
  intro fuel
  induction fuel with
  | zero =>
    intro pt idx cb _ hf
    omega
  | succ fuel ih =>
    intro pt idx cb hbr hf
    rcases le_or_lt pt.length n with hle | hgt
    · -- base: a single (short) data chunk followed by the final tag-only chunk
      rw [encResult_base _ _ _ _ _ _ _ _ (Or.inl hle)] at hf ⊢
      dsimp only at hf ⊢
      set e1 := encf pt (nonce idx) (adC idx) with he1
      set e2 := encf [] (nonce (idx + 1)) (adF (idx + 1) (cb + (pt.length : Int))) with he2
      have hl1 : e1.length = pt.length + t := by rw [he1, hlen]
      have hl2 : e2.length = t := by rw [he2, hlen]; simp
      have hlapp : (e1 ++ e2).length = pt.length + t + t := by
        rw [List.length_append, hl1, hl2]
      rw [runAEADLoop_succ]
      have hwin : (e1 ++ e2).take (n + t + t) = e1 ++ e2 :=
        List.take_of_length_le (by rw [hlapp]; omega)
      rw [hwin]
      have hchunk : chunkOf t (e1 ++ e2) = e1 := by
        rw [chunkOf_of_le (by rw [hlapp]; omega), hlapp,
          show pt.length + t + t - t = pt.length + t by omega,
          List.take_left' hl1]
      have hfinal : finalChunkOf t (e1 ++ e2) = e2 := by
        rw [finalChunkOf_of_le (by rw [hlapp]; omega), hlapp,
          show pt.length + t + t - t = pt.length + t by omega,
          List.drop_left' hl1]
      rw [hchunk, hfinal]
      rw [if_pos (Or.inr (List.ne_nil_of_length_pos (by rw [hl1]; omega)))]
      rw [decCfOf_ok decf e1 (nonce idx) (adC idx) pt (by rw [he1]; exact hround pt _ _)]
      rw [List.drop_length, List.append_nil]
      have hcb : cb + (e1.length : Int) - (t : Int) = cb + (pt.length : Int) := by
        rw [hl1]
        push_cast
        ring
      rw [hcb]
      cases fuel with
      | zero => rw [hlapp] at hf; omega
      | succ f =>
        rw [runAEADLoop_succ]
        have hwin2 : e2.take (n + t + t) = e2 :=
          List.take_of_length_le (by rw [hl2]; omega)
        rw [hwin2]
        have hchunk2 : chunkOf t e2 = [] := by
          rw [chunkOf_of_le (by rw [hl2]), hl2]
          simp
        have hfinal2 : finalChunkOf t e2 = e2 := by
          rw [finalChunkOf_of_le (by rw [hl2]), hl2]
          simp
        rw [hchunk2, hfinal2]
        rw [if_neg (by simp)]
        rw [decCfOf_ok decf e2 (nonce (idx + 1))
          (adF (idx + 1) (cb + (pt.length : Int))) [] (by rw [he2]; exact hround [] _ _)]
        refine ⟨_, rfl, ?_⟩
        simp
    · -- step: a full data chunk, then the rest
      rw [encResult_step _ _ _ _ _ _ _ _ (by push_neg; omega)] at hf ⊢
      dsimp only at hf ⊢
      set e1 := encf (pt.take n) (nonce idx) (adC idx) with he1
      set rest := encResult encf nonce adC adF n (pt.drop n) (idx + 1)
        (cb + ((pt.take n).length : Int)) with hrest
      have htklen : (pt.take n).length = n := by
        rw [List.length_take]
        omega
      have hl1 : e1.length = n + t := by rw [he1, hlen, htklen]
      have hrge : t ≤ rest.out.length := by
        rw [hrest]
        exact encResult_out_length_ge encf nonce adC adF n t hlen _ _ _
      rw [runAEADLoop_succ]
      have hwin : (e1 ++ rest.out).take (n + t + t) = e1 ++ rest.out.take t := by
        rw [show n + t + t = e1.length + t by rw [hl1], List.take_append]
      rw [hwin]
      have hwlen : (e1 ++ rest.out.take t).length = n + t + t := by
        rw [List.length_append, hl1, List.length_take]
        omega
      have hchunk : chunkOf t (e1 ++ rest.out.take t) = e1 := by
        rw [chunkOf_of_le (by rw [hwlen]; omega), hwlen,
          show n + t + t - t = n + t by omega, List.take_left' hl1]
      have hfinal : finalChunkOf t (e1 ++ rest.out.take t) = rest.out.take t := by
        rw [finalChunkOf_of_le (by rw [hwlen]; omega), hwlen,
          show n + t + t - t = n + t by omega, List.drop_left' hl1]
      rw [hchunk, hfinal]
      rw [if_pos (Or.inr (List.ne_nil_of_length_pos (by rw [hl1]; omega)))]
      rw [decCfOf_ok decf e1 (nonce idx) (adC idx) (pt.take n) (by rw [he1]; exact hround (pt.take n) _ _)]
      rw [hwlen, show n + t + t = e1.length + t by rw [hl1], List.drop_append,
        List.take_append_drop]
      have hcb : cb + (e1.length : Int) - (t : Int) = cb + ((pt.take n).length : Int) := by
        rw [hl1, htklen]
        push_cast
        ring
      rw [hcb]
      have hdne : pt.drop n ≠ [] := by
        apply List.ne_nil_of_length_pos
        rw [List.length_drop]
        omega
      have hfb : rest.out.length + 2 ≤ fuel := by
        rw [List.length_append, hl1] at hf
        omega
      obtain ⟨r', hloop, hout⟩ := ih (pt.drop n) (idx + 1) (cb + ((pt.take n).length : Int))
        (Or.inr hdne) (by rw [← hrest]; exact hfb)
      rw [← hrest] at hloop
      rw [hl1, hloop]
      refine ⟨_, rfl, ?_⟩
      dsimp only
      rw [hout, List.take_append_drop]

/-! ## C5: the final chunk binds the total plaintext length -/

/-- C5: in every successful SEIPD v2 run of `runAEAD` (either direction, under
an honest AEAD mode that only accepts inputs of at least tag length and strips
exactly the tag), the last primitive call is the final chunk, whose associated
data is the five-byte head followed by four zero bytes and a distinct 4-byte
big-endian field (at offset 9) holding the total plaintext byte count — the
input length when encrypting, the recovered output length when decrypting; when
encrypting its input is the zero-length closing chunk. -/
theorem claim5_final_chunk_binds_total_length (mode : AEADMode) (P : Primitives)
    (p : SEIPDPacket) (key data : Bytes) (dir : Direction) (r : LoopOut)
    (hv : p.version = 2)
    (hshort : ∀ (a : Nat) (k x nc ad : Bytes), x.length < mode.tagLength →
      mode.dec a k x nc ad = none)
    (hdlen : ∀ (a : Nat) (k x nc ad y : Bytes), mode.dec a k x nc ad = some y →
      y.length = x.length - mode.tagLength)
    (hrun : runAEAD mode P (.seipd p) dir key data = .ok r) :
    r.calls ≠ [] ∧ ∃ j c, r.calls.getLast? = some c ∧
      c.nonce = seipdNonce (seipdIVBase P mode key p) j ∧
      c.adata = seipdAdHead p ++ List.replicate 4 0 ++ be32i (totalPlainLen dir data r) ∧
      (dir = .encrypt → c.input = []) := by
  cases dir with
  | encrypt =>
    rw [runAEAD_seipd2_encrypt mode P p key data hv] at hrun
    simp only [Except.ok.injEq] at hrun
    subst hrun
    obtain ⟨hne, j, hlast⟩ := encResult_calls_final
      (mode.enc p.cipherAlgorithm (seipdDerivedKey P mode key p))
      (seipdNonce (seipdIVBase P mode key p)) (fun _ => seipdAdHead p)
      (fun _ cb => seipdAdHead p ++ List.replicate 4 0 ++ be32i cb)
      (2 ^ (p.chunkSizeByte + 6)) (Nat.two_pow_pos _) data.length data 0 0 le_rfl
    refine ⟨hne, j, _, hlast, rfl, ?_, fun _ => rfl⟩
    show seipdAdHead p ++ List.replicate 4 0 ++ be32i (0 + (data.length : Int)) = _
    rw [zero_add]
    rfl
  | decrypt =>
    rw [runAEAD_seipd2_decrypt mode P p key data hv] at hrun
    have hcf : ∀ x nc ad res,
        decCfOf (mode.dec p.cipherAlgorithm (seipdDerivedKey P mode key p)) x nc ad =
          .ok res →
        mode.tagLength ≤ x.length ∧ res.length = x.length - mode.tagLength := by
      intro x nc ad res h
      unfold decCfOf at h
      cases hd : mode.dec p.cipherAlgorithm (seipdDerivedKey P mode key p) x nc ad with
      | none => rw [hd] at h; exact absurd h (by simp)
      | some pt =>
        rw [hd] at h
        simp only [Except.ok.injEq] at h
        subst h
        refine ⟨?_, hdlen _ _ _ _ _ _ hd⟩
        by_contra hlt
        push_neg at hlt
        rw [hshort _ _ _ _ _ hlt] at hd
        exact absurd hd (by simp)
    obtain ⟨hne, j, fc, hlast⟩ := decLoopInvariant _ _ _ _ _ _ hcf _ _ _ _ _ hrun
    refine ⟨hne, j, _, hlast, rfl, ?_, fun hcon => by cases hcon⟩
    show seipdAdHead p ++ List.replicate 4 0 ++ be32i (0 + (r.out.length : Int)) = _
    rw [zero_add]
    rfl

theorem toyTag_length (a : Nat) (k pt nc ad : Bytes) : (toyTag a k pt nc ad).length = 16 := by
  simp [toyTag]

theorem toyMode_dec_short : ∀ (a : Nat) (k x nc ad : Bytes),
    x.length < toyMode.tagLength → toyMode.dec a k x nc ad = none := by
  intro a k x nc ad h
  simp only [toyMode] at h ⊢
  rw [if_neg (by omega)]

theorem toyMode_dec_len : ∀ (a : Nat) (k x nc ad y : Bytes),
    toyMode.dec a k x nc ad = some y → y.length = x.length - toyMode.tagLength := by
  intro a k x nc ad y h
  simp only [toyMode] at h ⊢
  by_cases h16 : 16 ≤ x.length
  · rw [if_pos h16] at h
    by_cases htag : x.drop (x.length - 16) = toyTag a k (x.take (x.length - 16)) nc ad
    · rw [if_pos htag] at h
      simp only [Option.some.injEq] at h
      subst h
      simp only [List.length_take]
      omega
    · rw [if_neg htag] at h
      exact absurd h (by simp)
  · rw [if_neg h16] at h
    exact absurd h (by simp)

theorem toyMode_enc_len : ∀ (a : Nat) (k x nc ad : Bytes),
    (toyMode.enc a k x nc ad).length = x.length + toyMode.tagLength := by
  intro a k x nc ad
  simp [toyMode, toyTag]

theorem toyMode_roundtrip : ∀ (a : Nat) (k x nc ad : Bytes),
    toyMode.dec a k (toyMode.enc a k x nc ad) nc ad = some x := by
  intro a k x nc ad
  have hlen : (x ++ toyTag a k x nc ad).length = x.length + 16 := by
    simp [toyTag_length]
  simp only [toyMode]
  rw [if_pos (by rw [hlen]; omega)]
  have hsub : (x ++ toyTag a k x nc ad).length - 16 = x.length := by
    rw [hlen]
    omega
  rw [hsub, List.take_left' rfl, List.drop_left' rfl, if_pos rfl]

theorem toyPrims_hkdf_length : ∀ (ikm s info : Bytes) (len : Nat),
    (toyPrims.hkdf ikm s info len).length = len := by
  simp [toyPrims]

theorem toyPrims_sha1_length : ∀ x : Bytes, (toyPrims.sha1 x).length = 20 := by
  simp [toyPrims]

theorem toyPrims_cfb_roundtrip : ∀ (a : Nat) (k x iv : Bytes),
    toyPrims.cfbDecrypt a k (toyPrims.cfbEncrypt a k x iv) iv = x := by
  intro a k x iv
  simp only [toyPrims, List.map_map]
  have hfun : ((fun y => y - 1) ∘ fun y => y + 1) = fun y : Nat => y := by
    funext y
    simp
  rw [hfun]
  exact List.map_id x

/-! ## C6: chunk counting for chunkSizeByte 0 and a 200-byte plaintext -/

/-- C6: for a version-2 packet with chunk-size byte 0 (64-byte chunks) and a
200-byte plaintext, encryption performs exactly 4 data-chunk calls of 64, 64,
64 and 8 plaintext bytes plus one zero-length final call, each individually
tagged, so the ciphertext length is `200 + 5 * tagLength`. -/
theorem claim6_chunk_counting (mode : AEADMode) (P : Primitives) (p : SEIPDPacket)
    (key pt : Bytes)
    (hv : p.version = 2) (hc : p.chunkSizeByte = 0) (hlen : pt.length = 200)
    (hencLen : ∀ (a : Nat) (k x nc ad : Bytes),
      (mode.enc a k x nc ad).length = x.length + mode.tagLength) :
    ∃ r, runAEAD mode P (.seipd p) .encrypt key pt = .ok r ∧
      r.calls.map (fun c => c.input.length) = [64, 64, 64, 8, 0] ∧
      r.out.length = 200 + 5 * mode.tagLength := by
  have hn : (2 : Nat) ^ (p.chunkSizeByte + 6) = 64 := by
    rw [hc]
    norm_num
  have l1 : (pt.take 64).length = 64 := by
    rw [List.length_take, hlen]
    omega
  have hd1 : (pt.drop 64).length = 136 := by
    rw [List.length_drop, hlen]
  have l2 : ((pt.drop 64).take 64).length = 64 := by
    rw [List.length_take, hd1]
    omega
  have hd2 : ((pt.drop 64).drop 64).length = 72 := by
    rw [List.length_drop, hd1]
  have l3 : (((pt.drop 64).drop 64).take 64).length = 64 := by
    rw [List.length_take, hd2]
    omega
  have hd3 : (((pt.drop 64).drop 64).drop 64).length = 8 := by
    rw [List.length_drop, hd2]
  refine ⟨_, runAEAD_seipd2_encrypt mode P p key pt hv, ?_⟩
  set E := mode.enc p.cipherAlgorithm (seipdDerivedKey P mode key p) with hE
  set nf := seipdNonce (seipdIVBase P mode key p) with hnf
  set ac : Nat → Bytes := fun _ => seipdAdHead p with hac
  set af : Nat → Int → Bytes :=
    fun _ cb => seipdAdHead p ++ List.replicate 4 0 ++ be32i cb with haf
  rw [hn]
  rw [encResult_step E nf ac af 64 pt 0 0 (by push_neg; omega)]
  rw [encResult_step E nf ac af 64 (pt.drop 64) _ _ (by push_neg; omega)]
  rw [encResult_step E nf ac af 64 ((pt.drop 64).drop 64) _ _ (by push_neg; omega)]
  rw [encResult_base E nf ac af 64 (((pt.drop 64).drop 64).drop 64) _ _ (Or.inl (by omega))]
  constructor
  · simp only [List.map_cons, List.map_nil, l1, l2, l3, hd3, List.length_nil]
  · simp only [List.length_append, hE, hencLen, l1, l2, l3, hd3, List.length_nil]
    omega

/-- Witness for C6: a concrete 200-byte plaintext under the toy mode. -/
theorem claim6_witness :
    wPacketC6.version = 2 ∧ wPacketC6.chunkSizeByte = 0 ∧
      (List.replicate 200 3 : Bytes).length = 200 ∧
      ∃ r, runAEAD toyMode toyPrims (.seipd wPacketC6) .encrypt wKey
            (List.replicate 200 3) = .ok r ∧
        r.calls.map (fun c => c.input.length) = [64, 64, 64, 8, 0] ∧
        r.out.length = 200 + 5 * toyMode.tagLength :=
  ⟨rfl, rfl, List.length_replicate 200 3,
    claim6_chunk_counting toyMode toyPrims wPacketC6 wKey (List.replicate 200 3)
      rfl rfl (List.length_replicate 200 3) toyMode_enc_len⟩

/-! ## C1: round trip -/

theorem exceptBind_ok {α β : Type} (a : α) (f : α → Except String β) :
    (Except.ok a : Except String α).bind f = f a := rfl

theorem exceptMap_ok {α β : Type} (a : α) (f : α → β) :
    (Except.ok a : Except String α).map f = .ok (f a) := rfl

theorem seipdAdHead_mk (v ca aa cs : Nat) (s e pks : Bytes) :
    seipdAdHead ⟨v, ca, aa, cs, s, e, pks⟩ = adataHead seipdTag v ca aa cs := rfl

theorem seipdDerivedKey_mk (P : Primitives) (mode : AEADMode) (key : Bytes)
    (v ca aa cs : Nat) (s e pks : Bytes) :
    seipdDerivedKey P mode key ⟨v, ca, aa, cs, s, e, pks⟩ =
      (P.hkdf key s (adataHead seipdTag v ca aa cs)
        (P.keySize ca + mode.ivLength)).take (P.keySize ca) := rfl

theorem seipdIVBase_mk (P : Primitives) (mode : AEADMode) (key : Bytes)
    (v ca aa cs : Nat) (s e pks : Bytes) :
    seipdIVBase P mode key ⟨v, ca, aa, cs, s, e, pks⟩ =
      zeroLast8 ((P.hkdf key s (adataHead seipdTag v ca aa cs)
        (P.keySize ca + mode.ivLength)).drop (P.keySize ca)) := rfl

/-- C1: for both supported versions and every cipher/AEAD algorithm, chunk-size
byte and plaintext, decrypting the output of `encrypt` with the same session
key recovers exactly the original inner-packet bytes. The external primitives
are quantified, constrained only by their interface laws (AEAD decryption
inverts encryption and appends a tag of fixed positive length; CFB decryption
inverts encryption; SHA-1 digests are 20 bytes; the random CFB prefix is one
block, the block size at least two). -/
theorem claim1_round_trip (P : Primitives) (mode : AEADMode)
    (pkt : SEIPDPacket) (alg : Nat) (key : Bytes)
    (cfgE cfgD : Config) (saltRand prefixRand : Bytes) (isStream : Bool)
    (hv : pkt.version = 1 ∨ pkt.version = 2)
    (hkey : key.length = P.keySize alg)
    (htag : 0 < mode.tagLength)
    (hencLen : ∀ (a : Nat) (k x nc ad : Bytes),
      (mode.enc a k x nc ad).length = x.length + mode.tagLength)
    (hround : ∀ (a : Nat) (k x nc ad : Bytes),
      mode.dec a k (mode.enc a k x nc ad) nc ad = some x)
    (hcfb : ∀ (a : Nat) (k x iv : Bytes),
      P.cfbDecrypt a k (P.cfbEncrypt a k x iv) iv = x)
    (hsha : ∀ x : Bytes, (P.sha1 x).length = 20)
    (hpre : prefixRand.length = P.blockSize alg)
    (hbs : 2 ≤ P.blockSize alg) :
    (seipdEncrypt P mode pkt alg key cfgE saltRand prefixRand).bind
        (fun pkt2 => seipdDecrypt P mode pkt2 alg key cfgD isStream) =
      .ok { packets := pkt.packets, drainError := none } := by
  have hkne : ¬ key.length ≠ P.keySize alg := by simp [hkey]
  rcases hv with hv1 | hv2
  · -- version 1: CFB + SHA-1 MDC
    have hv2n : ¬ pkt.version = 2 := by omega
    simp only [seipdEncrypt]
    rw [if_neg hkne, if_neg hv2n]
    rw [exceptBind_ok]
    simp only [seipdDecrypt]
    rw [if_neg hkne]
    rw [if_neg hv2n]
    set pfx := prefixRand ++ prefixRand.drop (prefixRand.length - 2) with hpfx
    have hpfxlen : pfx.length = P.blockSize alg + 2 := by
      rw [hpfx, List.length_append, List.length_drop, hpre]
      omega
    set tohash := pfx ++ pkt.packets ++ mdcBytes with htohash
    set D := P.cfbDecrypt alg key
      (P.cfbEncrypt alg key (tohash ++ P.sha1 tohash) (List.replicate (P.blockSize alg) 0))
      (List.replicate (P.blockSize alg) 0) with hD
    have hDval : D = tohash ++ P.sha1 tohash := by rw [hD, hcfb]
    have hDlen : D.length - 20 = tohash.length := by
      rw [hDval, List.length_append, hsha]
      omega
    have htake : D.take (D.length - 20) = tohash := by
      rw [hDlen, hDval]
      exact List.take_left _ _
    have hdrop : D.drop (D.length - 20) = P.sha1 tohash := by
      rw [hDlen, hDval]
      exact List.drop_left _ _
    rw [htake, hdrop, if_pos rfl]
    have hbytes : tohash.drop (P.blockSize alg + 2) = pkt.packets ++ mdcBytes := by
      rw [htohash, List.append_assoc, List.drop_left' hpfxlen]
    rw [hbytes]
    have hpb : (pkt.packets ++ mdcBytes).take ((pkt.packets ++ mdcBytes).length - 2) =
        pkt.packets := by
      rw [List.length_append, show pkt.packets.length + mdcBytes.length - 2 =
        pkt.packets.length by simp [mdcBytes], List.take_left]
    rw [hpb]
  · -- version 2: chunked AEAD
    obtain ⟨v, calg, aalg, csb, slt, enc, pks⟩ := pkt
    have hv2' : v = 2 := hv2
    subst hv2'
    simp only [seipdEncrypt]
    rw [if_neg hkne, if_pos trivial]
    rw [runAEAD_seipd2_encrypt mode P
      ⟨2, alg, aalg, cfgE.aeadChunkSizeByte, saltRand, enc, pks⟩ key pks rfl]
    rw [exceptMap_ok, exceptBind_ok]
    simp only [seipdDecrypt]
    rw [if_neg hkne, if_pos trivial, if_neg (by simp)]
    rw [runAEAD_seipd2_decrypt mode P
      ⟨2, alg, aalg, cfgE.aeadChunkSizeByte, saltRand, _, pks⟩ key _ rfl]
    simp only [seipdAdHead_mk, seipdDerivedKey_mk, seipdIVBase_mk]
    obtain ⟨r, hloop, hout⟩ := decLoop_inverts_enc
      (mode.enc alg ((P.hkdf key saltRand (adataHead seipdTag 2 alg aalg cfgE.aeadChunkSizeByte)
        (P.keySize alg + mode.ivLength)).take (P.keySize alg)))
      (mode.dec alg ((P.hkdf key saltRand (adataHead seipdTag 2 alg aalg cfgE.aeadChunkSizeByte)
        (P.keySize alg + mode.ivLength)).take (P.keySize alg)))
      (seipdNonce (zeroLast8 ((P.hkdf key saltRand
        (adataHead seipdTag 2 alg aalg cfgE.aeadChunkSizeByte)
        (P.keySize alg + mode.ivLength)).drop (P.keySize alg))))
      (fun _ => adataHead seipdTag 2 alg aalg cfgE.aeadChunkSizeByte)
      (fun _ cb => adataHead seipdTag 2 alg aalg cfgE.aeadChunkSizeByte ++
        List.replicate 4 0 ++ be32i cb)
      (2 ^ (cfgE.aeadChunkSizeByte + 6)) mode.tagLength
      (Nat.two_pow_pos _) htag (hencLen alg _) (hround alg _)
      _ pks 0 0 (Or.inl rfl) le_rfl
    rw [hloop, exceptMap_ok, hout]

/-- Witness for C1: a concrete v2 round trip under the toy primitives. -/
theorem claim1_witness :
    (wPacketV2.version = 1 ∨ wPacketV2.version = 2) ∧
      wKey.length = toyPrims.keySize 9 ∧ 0 < toyMode.tagLength ∧
      (seipdEncrypt toyPrims toyMode wPacketV2 9 wKey wCfg (List.replicate 32 7)
          (List.replicate 16 0)).bind
        (fun pkt2 => seipdDecrypt toyPrims toyMode pkt2 9 wKey wCfg false) =
      .ok { packets := wPacketV2.packets, drainError := none } := by
  refine ⟨Or.inr rfl, by decide, by decide, ?_⟩
  exact claim1_round_trip toyPrims toyMode wPacketV2 9 wKey wCfg wCfg
    (List.replicate 32 7) (List.replicate 16 0) false (Or.inr rfl) (by decide) (by decide)
    toyMode_enc_len toyMode_roundtrip toyPrims_cfb_roundtrip toyPrims_sha1_length
    (by decide) (by decide)

/-- Witness for C5: a concrete encryption run. -/
theorem claim5_witness :
    wPacketV2.version = 2 ∧
    ∃ r, runAEAD toyMode toyPrims (.seipd wPacketV2) .encrypt wKey [1, 2, 3] = .ok r ∧
      r.calls ≠ [] ∧ ∃ j c, r.calls.getLast? = some c ∧
        c.nonce = seipdNonce (seipdIVBase toyPrims toyMode wKey wPacketV2) j ∧
        c.adata = seipdAdHead wPacketV2 ++ List.replicate 4 0 ++
          be32i (totalPlainLen .encrypt [1, 2, 3] r) ∧
        (Direction.encrypt = Direction.encrypt → c.input = []) := by
  refine ⟨rfl, _, runAEAD_seipd2_encrypt toyMode toyPrims wPacketV2 wKey [1, 2, 3] rfl, ?_⟩
  exact claim5_final_chunk_binds_total_length toyMode toyPrims wPacketV2 wKey [1, 2, 3]
    .encrypt _ rfl toyMode_dec_short toyMode_dec_len
    (runAEAD_seipd2_encrypt toyMode toyPrims wPacketV2 wKey [1, 2, 3] rfl)

end OpenPGPSpec
